import Mathlib

/-!
Verification of the `scheduler` repository (src/scheduler.cpp).

The program defines a `StandardScheduler` backed by a `std::multimap<Time, Event*>`
(`events`) and a checkpoint `current : Time` starting at 0.

  * `schedule(ev, t)` inserts `(t, ev)` into the multimap.
  * `check(t)` sets `current := t` when `t > current`, then scans the map from its
    first entry, firing `ev->fire(tm, current)` for each entry while `tm <= current`,
    stopping at the first entry with `tm > current`; it bulk-erases the visited
    prefix and returns true iff at least one entry was visited.

We embed the multimap as a list of (deadline, event-id) pairs kept in ascending
deadline order: C++11 `multimap::insert` places a new element at the upper bound
of its key, i.e. after all existing elements with a key `<= t`, which is exactly
`insertEntry` below.  The scan-fire-erase loop of `check` is literally a
`takeWhile`/`dropWhile` split of the list.  `fire` invocations are recorded as an
observable trace (`FireCall`), and the conformance harness (`Notifier`,
`SimpleEvent::fire`, `testScheduler`) is embedded on top of that trace.

Time is `uint64_t`; the scheduler itself performs only comparisons (no
arithmetic), so `Nat` models it faithfully; the harness multiplications
(`10 * numsamples` etc.) are modelled in `Nat`, i.e. within representable range.
-/

/-- One entry of the multimap: `(deadline, event id)`. -/
abbrev Entry := Nat × Nat

/-- A recorded invocation of `Event::fire(scheduled, now)`, tagged with the
event's identity. -/
structure FireCall where
  ev : Nat
  scheduled : Nat
  now : Nat
  deriving DecidableEq, Repr

/-- The state of `StandardScheduler`: the multimap contents (in key order, ties
in insertion order) and the checkpoint `current`. -/
structure StandardScheduler where
  events : List Entry
  current : Nat
  deriving DecidableEq, Repr

/-- `StandardScheduler::StandardScheduler() : current(0) {}` — empty map,
checkpoint 0. -/
def StandardScheduler.init : StandardScheduler := ⟨[], 0⟩

/-- `std::multimap::insert({t, ev})` (C++11): the new element is placed before
the first existing element whose key is greater than `t`, hence after every
element with key `<= t` — in particular after all existing elements with the
same key. -/
def insertEntry (t : Nat) (ev : Nat) : List Entry → List Entry
  | [] => [(t, ev)]
  | e :: rest => if t < e.1 then (t, ev) :: e :: rest else e :: insertEntry t ev rest

/-- `StandardScheduler::schedule(Event *ev, Time t) { events.insert({t, ev}); }` -/
def StandardScheduler.schedule (s : StandardScheduler) (ev : Nat) (t : Nat) :
    StandardScheduler :=
  { s with events := insertEntry t ev s.events }

/-- What one `check` call produces: the sequence of `fire` invocations (in
invocation order), the post state, and the returned boolean. -/
structure CheckResult where
  fired : List FireCall
  state : StandardScheduler
  ret : Bool
  deriving DecidableEq, Repr

/-- `StandardScheduler::check(Time t)`: raise `current` to `t` when `t > current`;
iterate from `events.begin()` firing `ev->fire(tm, current)` while `tm <= current`
and breaking at the first `tm > current`; erase the visited half-open range
`[begin, it)`; return `it != begin`. -/
def StandardScheduler.check (s : StandardScheduler) (t : Nat) : CheckResult :=
  let cur := if s.current < t then t else s.current
  let visited := s.events.takeWhile (fun e => decide (e.1 ≤ cur))
  let rest := s.events.dropWhile (fun e => decide (e.1 ≤ cur))
  { fired := visited.map (fun e => ⟨e.2, e.1, cur⟩)
  , state := ⟨rest, cur⟩
  , ret := !visited.isEmpty }

/-- An external call into the scheduler. -/
inductive Op where
  | schedule (ev : Nat) (t : Nat)
  | check (t : Nat)
  deriving DecidableEq, Repr

/-- One call: the next state and the `fire` trace this call produces
(`schedule` fires nothing). -/
def stepOp (s : StandardScheduler) : Op → StandardScheduler × List FireCall
  | .schedule ev t => (s.schedule ev t, [])
  | .check t => let r := s.check t; (r.state, r.fired)

/-- A whole interleaving of `schedule`/`check` calls, with the concatenated
`fire` trace. -/
def runOps (s : StandardScheduler) : List Op → StandardScheduler × List FireCall
  | [] => (s, [])
  | op :: ops =>
    let p := stepOp s op
    let q := runOps p.1 ops
    (q.1, p.2 ++ q.2)

/-- The shared record of the conformance harness (`struct Notifier`). -/
structure Notifier where
  counter : Nat
  last : Nat
  error : Bool
  deriving DecidableEq, Repr

/-- `Notifier` default member initializers: `counter = 0`, `last = 0`,
`error = false`. -/
def Notifier.init : Notifier := ⟨0, 0, false⟩

/-- `SimpleEvent::fire(scheduled, now)`: increment the counter, set the sticky
error flag when `now < scheduled` or `now < last`, then record `last = now`. -/
def fireNotify (n : Notifier) (scheduled now : Nat) : Notifier :=
  { counter := n.counter + 1
  , last := now
  , error := n.error || decide (now < scheduled) || decide (now < n.last) }

/-- Apply a sequence of fire invocations to the shared notifier, in order. -/
def applyFires (n : Notifier) : List FireCall → Notifier
  | [] => n
  | f :: rest => applyFires (fireNotify n f.scheduled f.now) rest

/-- The harness's scheduling phase: perform the given `(event, deadline)`
registrations in order on the scheduler. -/
def scheduleAll (s : StandardScheduler) : List (Nat × Nat) → StandardScheduler
  | [] => s
  | r :: rest => scheduleAll (s.schedule r.1 r.2) rest

/-- The harness's drive phase: `check(now)` for each listed time in order; every
event is a `SimpleEvent` on the one shared notifier. -/
def runChecks (s : StandardScheduler) (n : Notifier) :
    List Nat → StandardScheduler × Notifier
  | [] => (s, n)
  | t :: ts =>
    let r := s.check t
    runChecks r.state (applyFires n r.fired) ts

/-- `for (Time now = 0; now <= numsamples * 10; now += 5)`: the times
`0, 5, 10, …, 10·N`. -/
def checkTimes (N : Nat) : List Nat := (List.range (2 * N + 1)).map (fun i => 5 * i)

/-- `testScheduler(sch, numsamples, numreposts)` on a fresh `StandardScheduler`,
with `regs` the `(event, deadline)` pairs in the order the inner loops draw
them: schedule everything, drive the checks, then return
`!(notify.error || notify.counter != numsamples * numreposts)`. -/
def testScheduler (regs : List (Nat × Nat)) (N R : Nat) : Bool :=
  let s := scheduleAll StandardScheduler.init regs
  let p := runChecks s Notifier.init (checkTimes N)
  !(p.2.error || decide (p.2.counter ≠ N * R))

/-- The multimap invariant: entries are in non-decreasing key order. -/
def SortedByKey (l : List Entry) : Prop :=
  List.Pairwise (fun a b : Entry => a.1 ≤ b.1) l

instance (l : List Entry) : Decidable (SortedByKey l) := by
  unfold SortedByKey; infer_instance

/-- `insertEntry` is the `takeWhile`/`dropWhile` split at the key's upper bound:
the new entry lands after every existing entry with key `≤ t`. -/
theorem insertEntry_eq_split (t ev : Nat) (l : List Entry) :
    insertEntry t ev l =
      l.takeWhile (fun e => decide (e.1 ≤ t)) ++
        (t, ev) :: l.dropWhile (fun e => decide (e.1 ≤ t)) := by
  induction l with
  | nil => rfl
  | cons e rest ih =>
    by_cases h : t < e.1
    · have h' : ¬ e.1 ≤ t := by omega
      simp [insertEntry, h, List.takeWhile_cons, List.dropWhile_cons, h']
    · have h' : e.1 ≤ t := by omega
      simp [insertEntry, h, List.takeWhile_cons, List.dropWhile_cons, h', ih]

/-- Inserting adds exactly the new pair, up to position. -/
theorem insertEntry_perm (t ev : Nat) (l : List Entry) :
    (insertEntry t ev l).Perm ((t, ev) :: l) := by
  induction l with
  | nil => rfl
  | cons e rest ih =>
    by_cases h : t < e.1
    · simp [insertEntry, h]
    · simp only [insertEntry, h, if_false]
      exact (ih.cons e).trans (List.Perm.swap _ _ _)

theorem insertEntry_length (t ev : Nat) (l : List Entry) :
    (insertEntry t ev l).length = l.length + 1 :=
  (insertEntry_perm t ev l).length_eq

/-- Insertion at the upper bound keeps the multimap sorted. -/
theorem insertEntry_sorted (t ev : Nat) (l : List Entry) (hl : SortedByKey l) :
    SortedByKey (insertEntry t ev l) := by
  induction l with
  | nil => exact List.pairwise_singleton _ _
  | cons e rest ih =>
    rcases List.pairwise_cons.mp hl with ⟨he, hrest⟩
    by_cases h : t < e.1
    · simp only [insertEntry, h, if_true]
      refine List.pairwise_cons.mpr ⟨?_, hl⟩
      intro b hb
      rcases List.mem_cons.mp hb with rfl | hb
      · omega
      · exact le_trans (le_of_lt h) (he b hb)
    · simp only [insertEntry, h, if_false]
      refine List.pairwise_cons.mpr ⟨?_, ih hrest⟩
      intro b hb
      rcases List.mem_cons.mp ((insertEntry_perm t ev rest).mem_iff.mp hb) with h1 | hb2
      · rw [h1]; exact le_of_not_lt h
      · exact he b hb2

/-- On a key-sorted list, the scan prefix of due entries is all of them. -/
theorem takeWhile_due_eq_filter (c : Nat) (l : List Entry) (hl : SortedByKey l) :
    l.takeWhile (fun e => decide (e.1 ≤ c)) = l.filter (fun e => decide (e.1 ≤ c)) := by
  induction l with
  | nil => rfl
  | cons e rest ih =>
    rcases List.pairwise_cons.mp hl with ⟨he, hrest⟩
    by_cases h : e.1 ≤ c
    · simp [List.takeWhile_cons, List.filter_cons, h, ih hrest]
    · have : ∀ b ∈ rest, ¬ (b.1 ≤ c) := fun b hb => by have := he b hb; omega
      simp only [List.takeWhile_cons, List.filter_cons, h, decide_False]
      rw [List.filter_eq_nil_iff.mpr (by simpa using this)]
      simp

/-- On a key-sorted list, the erased range leaves exactly the not-yet-due
entries. -/
theorem dropWhile_due_eq_filter (c : Nat) (l : List Entry) (hl : SortedByKey l) :
    l.dropWhile (fun e => decide (e.1 ≤ c)) = l.filter (fun e => !decide (e.1 ≤ c)) := by
  induction l with
  | nil => rfl
  | cons e rest ih =>
    rcases List.pairwise_cons.mp hl with ⟨he, hrest⟩
    by_cases h : e.1 ≤ c
    · simp [List.dropWhile_cons, List.filter_cons, h, ih hrest]
    · have : ∀ b ∈ rest, ¬ (b.1 ≤ c) := fun b hb => by have := he b hb; omega
      simp only [List.dropWhile_cons, List.filter_cons, h, decide_False]
      rw [List.filter_eq_self.mpr ?_]
      · simp
      · intro b hb
        simp [this b hb]

/-- The checkpoint written by `check` is `max current t`. -/
theorem check_current_eq_max (a t : Nat) :
    (if a < t then t else a) = max a t := by
  rcases Nat.lt_or_ge a t with h | h
  · simp [h, Nat.max_eq_right (le_of_lt h)]
  · simp [Nat.not_lt.mpr h, Nat.max_eq_left h]

/-- On a key-sorted state, `check t` is: checkpoint `max current t`, fire the
due entries, keep the rest, report whether any entry was visited. -/
theorem check_spec (s : StandardScheduler) (t : Nat) (hs : SortedByKey s.events) :
    s.check t =
      { fired := (s.events.filter (fun e => decide (e.1 ≤ max s.current t))).map
          (fun e => ⟨e.2, e.1, max s.current t⟩)
      , state := ⟨s.events.filter (fun e => !decide (e.1 ≤ max s.current t)),
          max s.current t⟩
      , ret := !(s.events.filter (fun e => decide (e.1 ≤ max s.current t))).isEmpty } := by
  simp only [StandardScheduler.check, check_current_eq_max,
    takeWhile_due_eq_filter _ _ hs, dropWhile_due_eq_filter _ _ hs]

-- Sanity: the spec's §8 concrete scenario, deadlines {3, 3, 7, 20}.
example :
    (StandardScheduler.init.schedule 0 3).events = [(3, 0)] := by decide

example :
    ((((StandardScheduler.init.schedule 0 3).schedule 1 3).schedule 2 7).schedule
      3 20).check 5 =
    { fired := [⟨0, 3, 5⟩, ⟨1, 3, 5⟩]
    , state := ⟨[(7, 2), (20, 3)], 5⟩
    , ret := true } := by decide

example :
    ((StandardScheduler.mk [(7, 2), (20, 3)] 5).check 5) =
    { fired := []
    , state := ⟨[(7, 2), (20, 3)], 5⟩
    , ret := false } := by decide

/-- One call never lowers the checkpoint. -/
theorem stepOp_current_le (s : StandardScheduler) (op : Op) :
    s.current ≤ (stepOp s op).1.current := by
  cases op with
  | schedule ev t => exact le_refl _
  | check t =>
    simp only [stepOp, StandardScheduler.check]
    split <;> omega

/-- A whole run never lowers the checkpoint. -/
theorem runOps_current_le (s : StandardScheduler) (ops : List Op) :
    s.current ≤ (runOps s ops).1.current := by
  induction ops generalizing s with
  | nil => exact le_refl _
  | cons op ops ih =>
    exact le_trans (stepOp_current_le s op) (ih (stepOp s op).1)

/-- Every fire call a single scheduler call produces observes the call's final
checkpoint as `now`. -/
theorem stepOp_fired_now (s : StandardScheduler) (op : Op) :
    ∀ f ∈ (stepOp s op).2, f.now = (stepOp s op).1.current := by
  cases op with
  | schedule ev t => intro f hf; simp [stepOp] at hf
  | check t =>
    intro f hf
    simp only [stepOp, StandardScheduler.check] at hf ⊢
    rcases List.mem_map.mp hf with ⟨e, _, rfl⟩
    rfl

/-- Trace bounds of a run: each `now` lies between the entry and exit
checkpoints, and the `now` values are non-decreasing along the trace. -/
theorem runOps_trace_bounds (s : StandardScheduler) (ops : List Op) :
    (∀ f ∈ (runOps s ops).2,
        s.current ≤ f.now ∧ f.now ≤ (runOps s ops).1.current) ∧
    List.Pairwise (fun a b : FireCall => a.now ≤ b.now) (runOps s ops).2 := by
  induction ops generalizing s with
  | nil => exact ⟨by intro f hf; simp [runOps] at hf, by simp [runOps]⟩
  | cons op ops ih =>
    obtain ⟨ihb, ihp⟩ := ih (stepOp s op).1
    have hnow := stepOp_fired_now s op
    have hstep := stepOp_current_le s op
    have hrun := runOps_current_le (stepOp s op).1 ops
    constructor
    · intro f hf
      simp only [runOps, List.mem_append] at hf
      rcases hf with hf | hf
      · have h1 := hnow f hf
        constructor
        · rw [h1]; exact hstep
        · rw [h1]; exact hrun
      · have := ihb f hf
        exact ⟨le_trans hstep this.1, this.2⟩
    · simp only [runOps]
      refine List.pairwise_append.mpr ⟨?_, ihp, ?_⟩
      · exact List.pairwise_of_forall_mem_list (fun a ha b hb => by
          rw [hnow a ha, hnow b hb])
      · intro a ha b hb
        rw [hnow a ha]
        exact (ihb b hb).1

/-- Key-sortedness is an invariant of every reachable state, so the
`SortedByKey` hypotheses below hold for every state a program can produce. -/
theorem runOps_sorted (s : StandardScheduler) (ops : List Op)
    (hs : SortedByKey s.events) : SortedByKey (runOps s ops).1.events := by
  induction ops generalizing s with
  | nil => exact hs
  | cons op ops ih =>
    refine ih (stepOp s op).1 ?_
    cases op with
    | schedule ev t => exact insertEntry_sorted t ev s.events hs
    | check t => exact List.Pairwise.sublist (List.dropWhile_sublist _) hs

/-- **C1**: for every key-sorted scheduler state and every time `t`, `check t`
advances the checkpoint to `max current t`, fires — in non-decreasing deadline
order — exactly the still-pending entries whose deadline is `≤` the updated
checkpoint (past deadlines included), passing `fire(deadline, checkpoint)` to
each, removes exactly the fired entries, and returns true iff at least one
entry fired. -/
theorem check_advances_and_fires_due (s : StandardScheduler) (t : Nat)
    (hs : SortedByKey s.events) :
    (s.check t).state.current = max s.current t ∧
    (s.check t).fired =
      (s.events.filter (fun e => decide (e.1 ≤ max s.current t))).map
        (fun e => ⟨e.2, e.1, max s.current t⟩) ∧
    List.Pairwise (fun a b : FireCall => a.scheduled ≤ b.scheduled)
      (s.check t).fired ∧
    (∀ f ∈ (s.check t).fired, f.scheduled ≤ f.now ∧ f.now = max s.current t) ∧
    (s.check t).state.events =
      s.events.filter (fun e => !decide (e.1 ≤ max s.current t)) ∧
    ((s.check t).ret = true ↔ (s.check t).fired ≠ []) := by
  rw [check_spec s t hs]
  refine ⟨rfl, rfl, ?_, ?_, rfl, ?_⟩
  · rw [List.pairwise_map]
    exact hs.filter _
  · intro f hf
    rcases List.mem_map.mp hf with ⟨e, he, rfl⟩
    have := List.of_mem_filter he
    exact ⟨by simpa using this, rfl⟩
  · simp [List.isEmpty_iff, List.map_eq_nil_iff]

/-- Witness for C1 at state `⟨[(3, 0), (7, 1)], 2⟩`, `t = 5`. -/
theorem check_advances_and_fires_due_witness :
    SortedByKey (StandardScheduler.mk [(3, 0), (7, 1)] 2).events ∧
    (((StandardScheduler.mk [(3, 0), (7, 1)] 2).check 5).state.current =
        max (StandardScheduler.mk [(3, 0), (7, 1)] 2).current 5 ∧
      ((StandardScheduler.mk [(3, 0), (7, 1)] 2).check 5).fired =
        ((StandardScheduler.mk [(3, 0), (7, 1)] 2).events.filter
            (fun e => decide (e.1 ≤ max (StandardScheduler.mk [(3, 0), (7, 1)] 2).current 5))).map
          (fun e => ⟨e.2, e.1, max (StandardScheduler.mk [(3, 0), (7, 1)] 2).current 5⟩) ∧
      List.Pairwise (fun a b : FireCall => a.scheduled ≤ b.scheduled)
        ((StandardScheduler.mk [(3, 0), (7, 1)] 2).check 5).fired ∧
      (∀ f ∈ ((StandardScheduler.mk [(3, 0), (7, 1)] 2).check 5).fired,
        f.scheduled ≤ f.now ∧
          f.now = max (StandardScheduler.mk [(3, 0), (7, 1)] 2).current 5) ∧
      ((StandardScheduler.mk [(3, 0), (7, 1)] 2).check 5).state.events =
        (StandardScheduler.mk [(3, 0), (7, 1)] 2).events.filter
          (fun e => !decide (e.1 ≤ max (StandardScheduler.mk [(3, 0), (7, 1)] 2).current 5)) ∧
      (((StandardScheduler.mk [(3, 0), (7, 1)] 2).check 5).ret = true ↔
        ((StandardScheduler.mk [(3, 0), (7, 1)] 2).check 5).fired ≠ [])) :=
  ⟨by decide, check_advances_and_fires_due (StandardScheduler.mk [(3, 0), (7, 1)] 2) 5 (by decide)⟩

/-- **C3**: in any interleaving of `schedule`/`check` calls, every `fire`
invocation the scheduler performs satisfies `now ≥ scheduled`. -/
theorem fire_not_premature (s : StandardScheduler) (ops : List Op) :
    ∀ f ∈ (runOps s ops).2, f.scheduled ≤ f.now := by
  induction ops generalizing s with
  | nil => intro f hf; simp [runOps] at hf
  | cons op ops ih =>
    intro f hf
    simp only [runOps, List.mem_append] at hf
    rcases hf with hf | hf
    · cases op with
      | schedule ev t => simp [stepOp] at hf
      | check t =>
        simp only [stepOp, StandardScheduler.check] at hf
        rcases List.mem_map.mp hf with ⟨e, he, rfl⟩
        simpa using List.mem_takeWhile_imp he
    · exact ih (stepOp s op).1 f hf

/-- Witness for C3: a run scheduling one event at 3 and checking at 5. -/
theorem fire_not_premature_witness :
    (⟨0, 3, 5⟩ : FireCall) ∈
        (runOps StandardScheduler.init [Op.schedule 0 3, Op.check 5]).2 ∧
    (⟨0, 3, 5⟩ : FireCall).scheduled ≤ (⟨0, 3, 5⟩ : FireCall).now :=
  ⟨by decide,
    fire_not_premature StandardScheduler.init [Op.schedule 0 3, Op.check 5]
      ⟨0, 3, 5⟩ (by decide)⟩

/-- **C4**: across the full sequence of `fire` invocations produced by one
`StandardScheduler` instance over any interleaving of `schedule` and `check`
calls, the `now` values form a non-decreasing sequence. -/
theorem fire_now_monotone (ops : List Op) :
    List.Pairwise (fun a b : FireCall => a.now ≤ b.now)
      (runOps StandardScheduler.init ops).2 :=
  (runOps_trace_bounds StandardScheduler.init ops).2

/-- **C5**: the checkpoint starts at 0, `schedule` never changes it, `check t`
with `t` above the checkpoint sets it to `t`, `check t` with `t ≤` the
checkpoint leaves it unchanged, and no run of calls ever lowers it. -/
theorem checkpoint_monotone :
    StandardScheduler.init.current = 0 ∧
    (∀ (s : StandardScheduler) (ev t : Nat), (s.schedule ev t).current = s.current) ∧
    (∀ (s : StandardScheduler) (t : Nat),
      s.current < t → (s.check t).state.current = t) ∧
    (∀ (s : StandardScheduler) (t : Nat),
      t ≤ s.current → (s.check t).state.current = s.current) ∧
    (∀ (s : StandardScheduler) (ops : List Op),
      s.current ≤ (runOps s ops).1.current) := by
  refine ⟨rfl, fun s ev t => rfl, ?_, ?_, runOps_current_le⟩
  · intro s t h
    simp [StandardScheduler.check, h]
  · intro s t h
    simp [StandardScheduler.check, Nat.not_lt.mpr h]

/-- Witness for C5: advancing check at checkpoint 3 with `t = 5` and a
non-advancing check with `t = 2`. -/
theorem checkpoint_monotone_witness :
    ((StandardScheduler.mk [] 3).current < 5 ∧
      ((StandardScheduler.mk [] 3).check 5).state.current = 5) ∧
    (2 ≤ (StandardScheduler.mk [] 3).current ∧
      ((StandardScheduler.mk [] 3).check 2).state.current =
        (StandardScheduler.mk [] 3).current) :=
  ⟨⟨by decide, checkpoint_monotone.2.2.1 (StandardScheduler.mk [] 3) 5 (by decide)⟩,
    ⟨by decide, checkpoint_monotone.2.2.2.1 (StandardScheduler.mk [] 3) 2 (by decide)⟩⟩

/-- **C6**: when every pending entry's deadline is strictly above the
checkpoint, `check` with any `t ≤` the checkpoint returns false, fires
nothing, and leaves the whole state unchanged. -/
theorem empty_check_noop (s : StandardScheduler) (t : Nat)
    (hpend : ∀ e ∈ s.events, s.current < e.1) (ht : t ≤ s.current) :
    (s.check t).ret = false ∧ (s.check t).fired = [] ∧ (s.check t).state = s := by
  obtain ⟨evts, cur⟩ := s
  have hcur : (if cur < t then t else cur) = cur := by
    simp [Nat.not_lt.mpr ht]
  have htake : evts.takeWhile (fun e => decide (e.1 ≤ cur)) = [] := by
    cases evts with
    | nil => rfl
    | cons e rest =>
      have h1 : cur < e.1 := hpend e (List.mem_cons_self e rest)
      simp [List.takeWhile_cons, Nat.not_le.mpr h1]
  have hdrop : evts.dropWhile (fun e => decide (e.1 ≤ cur)) = evts := by
    cases evts with
    | nil => rfl
    | cons e rest =>
      have h1 : cur < e.1 := hpend e (List.mem_cons_self e rest)
      simp [List.dropWhile_cons, Nat.not_le.mpr h1]
  refine ⟨?_, ?_, ?_⟩ <;>
    simp [StandardScheduler.check, hcur, htake, hdrop]

/-- Witness for C6 at state `⟨[(7, 1)], 5⟩`, `t = 3`. -/
theorem empty_check_noop_witness :
    (∀ e ∈ (StandardScheduler.mk [(7, 1)] 5).events,
      (StandardScheduler.mk [(7, 1)] 5).current < e.1) ∧
    3 ≤ (StandardScheduler.mk [(7, 1)] 5).current ∧
    ((StandardScheduler.mk [(7, 1)] 5).check 3).ret = false ∧
    ((StandardScheduler.mk [(7, 1)] 5).check 3).fired = [] ∧
    ((StandardScheduler.mk [(7, 1)] 5).check 3).state =
      StandardScheduler.mk [(7, 1)] 5 :=
  ⟨by decide, by decide,
    empty_check_noop (StandardScheduler.mk [(7, 1)] 5) 3 (by decide) (by decide)⟩

/-- **C7**: `schedule ev t` adds exactly the entry `(t, ev)` to the index,
keeps the checkpoint and all previously stored entries, and performs no fire
invocation. -/
theorem schedule_adds_one_entry (s : StandardScheduler) (ev t : Nat) :
    (s.schedule ev t).current = s.current ∧
    ((s.schedule ev t).events).Perm ((t, ev) :: s.events) ∧
    (s.schedule ev t).events.length = s.events.length + 1 ∧
    (stepOp s (.schedule ev t)).2 = [] :=
  ⟨rfl, insertEntry_perm t ev s.events, insertEntry_length t ev s.events, rfl⟩

/-- The fire trace of `check` on a key-sorted state, as a map over the due
entries. -/
theorem check_fired_eq (s : StandardScheduler) (t : Nat)
    (hs : SortedByKey s.events) :
    (s.check t).fired =
      (s.events.filter (fun e => decide (e.1 ≤ max s.current t))).map
        (fun e => ⟨e.2, e.1, max s.current t⟩) := by
  rw [check_spec s t hs]

/-- **C10**: `check` with `t` strictly below the checkpoint is not a pure
no-op: the checkpoint stays unchanged, but every pending entry whose deadline
is `≤` the old checkpoint still fires with `now` equal to that unchanged
checkpoint and is removed, and the call returns true exactly when such an
entry existed. -/
theorem check_past_time_still_fires_due (s : StandardScheduler) (t : Nat)
    (hs : SortedByKey s.events) (ht : t < s.current) :
    (s.check t).state.current = s.current ∧
    (s.check t).fired =
      (s.events.filter (fun e => decide (e.1 ≤ s.current))).map
        (fun e => ⟨e.2, e.1, s.current⟩) ∧
    (∀ f ∈ (s.check t).fired, f.now = s.current) ∧
    (s.check t).state.events =
      s.events.filter (fun e => !decide (e.1 ≤ s.current)) ∧
    ((s.check t).ret = true ↔ (s.check t).fired ≠ []) := by
  have hmax : max s.current t = s.current := Nat.max_eq_left (le_of_lt ht)
  rw [check_spec s t hs, hmax]
  refine ⟨rfl, rfl, ?_, rfl, ?_⟩
  · intro f hf
    rcases List.mem_map.mp hf with ⟨e, _, rfl⟩
    rfl
  · simp [List.isEmpty_iff, List.map_eq_nil_iff]

/-- Witness for C10 at state `⟨[(3, 0), (9, 1)], 7⟩`, `t = 4`. -/
theorem check_past_time_still_fires_due_witness :
    SortedByKey (StandardScheduler.mk [(3, 0), (9, 1)] 7).events ∧
    4 < (StandardScheduler.mk [(3, 0), (9, 1)] 7).current ∧
    (((StandardScheduler.mk [(3, 0), (9, 1)] 7).check 4).state.current =
        (StandardScheduler.mk [(3, 0), (9, 1)] 7).current ∧
      ((StandardScheduler.mk [(3, 0), (9, 1)] 7).check 4).fired =
        ((StandardScheduler.mk [(3, 0), (9, 1)] 7).events.filter
            (fun e => decide (e.1 ≤ (StandardScheduler.mk [(3, 0), (9, 1)] 7).current))).map
          (fun e => ⟨e.2, e.1, (StandardScheduler.mk [(3, 0), (9, 1)] 7).current⟩) ∧
      (∀ f ∈ ((StandardScheduler.mk [(3, 0), (9, 1)] 7).check 4).fired,
        f.now = (StandardScheduler.mk [(3, 0), (9, 1)] 7).current) ∧
      ((StandardScheduler.mk [(3, 0), (9, 1)] 7).check 4).state.events =
        (StandardScheduler.mk [(3, 0), (9, 1)] 7).events.filter
          (fun e => !decide (e.1 ≤ (StandardScheduler.mk [(3, 0), (9, 1)] 7).current)) ∧
      (((StandardScheduler.mk [(3, 0), (9, 1)] 7).check 4).ret = true ↔
        ((StandardScheduler.mk [(3, 0), (9, 1)] 7).check 4).fired ≠ [])) :=
  ⟨by decide, by decide,
    check_past_time_still_fires_due (StandardScheduler.mk [(3, 0), (9, 1)] 7) 4
      (by decide) (by decide)⟩

/-- **C9**: ties fire FIFO. First conjunct: on a key-sorted state, `schedule`
appends the new entry at the end of its deadline's tie-bucket (multimap
insertion goes after all entries with the same key). Second conjunct: a
`check` that reaches deadline `d` fires the whole `d` tie-bucket in index
order. Together: entries with equal deadlines fire in the order of their
`schedule` calls. -/
theorem equal_deadline_fifo :
    (∀ (s : StandardScheduler) (ev d : Nat), SortedByKey s.events →
      (s.schedule ev d).events.filter (fun e => decide (e.1 = d)) =
        s.events.filter (fun e => decide (e.1 = d)) ++ [(d, ev)]) ∧
    (∀ (s : StandardScheduler) (t d : Nat), SortedByKey s.events →
      d ≤ max s.current t →
      (s.check t).fired.filter (fun f => decide (f.scheduled = d)) =
        (s.events.filter (fun e => decide (e.1 = d))).map
          (fun e => ⟨e.2, e.1, max s.current t⟩)) := by
  constructor
  · intro s ev d hs
    show (insertEntry d ev s.events).filter _ = _
    rw [insertEntry_eq_split, List.filter_append, List.filter_cons,
      takeWhile_due_eq_filter d _ hs, dropWhile_due_eq_filter d _ hs,
      List.filter_filter, List.filter_filter]
    have h1 : (s.events.filter
        (fun e => decide (e.1 = d) && !decide (e.1 ≤ d))) = [] := by
      rw [List.filter_eq_nil_iff]
      intro e _
      simp only [Bool.and_eq_true, decide_eq_true_eq, Bool.not_eq_true',
        decide_eq_false_iff_not, not_and]
      omega
    have h2 : (s.events.filter (fun e => decide (e.1 = d) && decide (e.1 ≤ d))) =
        s.events.filter (fun e => decide (e.1 = d)) := by
      refine List.filter_congr ?_
      intro e _
      by_cases h : e.1 = d <;> simp [h]
    rw [h1, h2]
    simp
  · intro s t d hs hd
    rw [check_fired_eq s t hs, List.filter_map, List.filter_filter]
    have h2 : (s.events.filter
        (fun e =>
          decide ((⟨e.2, e.1, max s.current t⟩ : FireCall).scheduled = d) &&
            decide (e.1 ≤ max s.current t))) =
        s.events.filter (fun e => decide (e.1 = d)) := by
      refine List.filter_congr ?_
      intro e _
      by_cases h : e.1 = d
      · simp only [h]
        simp [Nat.le_of_eq, hd]
      · simp [h]
    rw [show ((fun f : FireCall => decide (f.scheduled = d)) ∘
        (fun e : Entry => (⟨e.2, e.1, max s.current t⟩ : FireCall))) =
        (fun e : Entry => decide (e.1 = d)) from rfl] at *
    rw [h2]

/-- Witness for C9: state `⟨[(4, 7)], 0⟩` with one deadline-4 entry, then a
schedule of event 9 at deadline 4 and a check at `t = 4`. -/
theorem equal_deadline_fifo_witness :
    (SortedByKey (StandardScheduler.mk [(4, 7)] 0).events ∧
      ((StandardScheduler.mk [(4, 7)] 0).schedule 9 4).events.filter
          (fun e => decide (e.1 = 4)) =
        (StandardScheduler.mk [(4, 7)] 0).events.filter
          (fun e => decide (e.1 = 4)) ++ [(4, 9)]) ∧
    (SortedByKey (StandardScheduler.mk [(4, 7), (4, 9)] 0).events ∧
      4 ≤ max (StandardScheduler.mk [(4, 7), (4, 9)] 0).current 4 ∧
      ((StandardScheduler.mk [(4, 7), (4, 9)] 0).check 4).fired.filter
          (fun f => decide (f.scheduled = 4)) =
        ((StandardScheduler.mk [(4, 7), (4, 9)] 0).events.filter
            (fun e => decide (e.1 = 4))).map
          (fun e => ⟨e.2, e.1, max (StandardScheduler.mk [(4, 7), (4, 9)] 0).current 4⟩)) :=
  ⟨⟨by decide, equal_deadline_fifo.1 (StandardScheduler.mk [(4, 7)] 0) 9 4 (by decide)⟩,
    ⟨by decide, by decide,
      equal_deadline_fifo.2 (StandardScheduler.mk [(4, 7), (4, 9)] 0) 4 4
        (by decide) (by decide)⟩⟩

/-- Each fire invocation bumps the shared counter by one. -/
theorem applyFires_counter (n : Notifier) (fs : List FireCall) :
    (applyFires n fs).counter = n.counter + fs.length := by
  induction fs generalizing n with
  | nil => rfl
  | cons f fs ih =>
    simp [applyFires, ih, fireNotify]
    omega

/-- Firing a batch whose `now` values all equal `c`, each at or after its
deadline, onto a clean notifier whose `last` is at most `c`, keeps the error
flag clear and leaves `last ≤ c`. -/
theorem applyFires_no_error (c : Nat) (n : Notifier) (fs : List FireCall)
    (hn : n.error = false) (hl : n.last ≤ c)
    (hf : ∀ f ∈ fs, f.now = c ∧ f.scheduled ≤ f.now) :
    (applyFires n fs).error = false ∧ (applyFires n fs).last ≤ c := by
  induction fs generalizing n with
  | nil => exact ⟨hn, hl⟩
  | cons f fs ih =>
    obtain ⟨hnow, hsch⟩ := hf f (List.mem_cons_self f fs)
    refine ih (fireNotify n f.scheduled f.now) ?_ ?_
      (fun g hg => hf g (List.mem_cons_of_mem f hg))
    · simp only [fireNotify, hn, Bool.false_or, Bool.or_eq_false_iff,
        decide_eq_false_iff_not, Nat.not_lt]
      exact ⟨hsch, by omega⟩
    · simp only [fireNotify]
      omega

/-- One `check` call conserves entries: fired plus kept equals previous. -/
theorem check_length (s : StandardScheduler) (t : Nat) :
    (s.check t).fired.length + (s.check t).state.events.length =
      s.events.length := by
  have h := congrArg List.length
    (List.takeWhile_append_dropWhile
      (p := fun e : Entry => decide (e.1 ≤ if s.current < t then t else s.current))
      (l := s.events))
  simp only [List.length_append] at h
  simpa [StandardScheduler.check] using h

/-- `check` keeps the multimap key-sorted (it only drops a prefix). -/
theorem check_sorted (s : StandardScheduler) (t : Nat)
    (hs : SortedByKey s.events) : SortedByKey (s.check t).state.events :=
  List.Pairwise.sublist (List.dropWhile_sublist _) hs

/-- Entries surviving a `check` were already stored before it. -/
theorem check_events_subset (s : StandardScheduler) (t : Nat) :
    ∀ e ∈ (s.check t).state.events, e ∈ s.events := by
  intro e he
  exact (List.dropWhile_sublist _).mem he

/-- Every fire a `check` performs observes the new checkpoint and is not
premature. -/
theorem check_fired_ok (s : StandardScheduler) (t : Nat) :
    ∀ f ∈ (s.check t).fired,
      f.now = (s.check t).state.current ∧ f.scheduled ≤ f.now := by
  intro f hf
  simp only [StandardScheduler.check] at hf ⊢
  rcases List.mem_map.mp hf with ⟨e, he, rfl⟩
  exact ⟨rfl, by simpa using List.mem_takeWhile_imp he⟩

/-- `check` never lowers the checkpoint, and reaches at least `t`. -/
theorem check_current_bounds (s : StandardScheduler) (t : Nat) :
    s.current ≤ (s.check t).state.current ∧ t ≤ (s.check t).state.current := by
  simp only [StandardScheduler.check]
  split <;> omega

/-- A scheduler with no stored entries keeps none through any drive phase. -/
theorem runChecks_events_nil_preserved (s : StandardScheduler) (n : Notifier)
    (ts : List Nat) (h : s.events = []) :
    (runChecks s n ts).1.events = [] := by
  induction ts generalizing s n with
  | nil => exact h
  | cons t ts ih =>
    refine ih _ _ ?_
    simp [StandardScheduler.check, h]

/-- Once the drive phase reaches a time that bounds every stored deadline, the
multimap is empty for good. -/
theorem runChecks_drains (B : Nat) (s : StandardScheduler) (n : Notifier)
    (ts : List Nat) (hs : SortedByKey s.events)
    (hb : ∀ e ∈ s.events, e.1 ≤ B) (hmem : B ∈ ts) :
    (runChecks s n ts).1.events = [] := by
  induction ts generalizing s n with
  | nil => simp at hmem
  | cons t ts ih =>
    rcases List.mem_cons.mp hmem with hBt | hBts
    · have hdrop : (s.check t).state.events = [] := by
        have hcur : B ≤ (if s.current < t then t else s.current) := by
          subst hBt
          split <;> omega
        simp only [StandardScheduler.check]
        rw [List.dropWhile_eq_nil_iff]
        intro e he
        have := hb e he
        simp only [decide_eq_true_eq]
        omega
      simp only [runChecks]
      exact runChecks_events_nil_preserved _ _ _ hdrop
    · exact ih (s.check t).state (applyFires n (s.check t).fired)
        (check_sorted s t hs)
        (fun e he => hb e (check_events_subset s t e he)) hBts

/-- Drive-phase bookkeeping: the final counter plus the leftover entries
account exactly for the starting counter plus the starting entries. -/
theorem runChecks_counter (s : StandardScheduler) (n : Notifier)
    (ts : List Nat) :
    (runChecks s n ts).2.counter + (runChecks s n ts).1.events.length =
      n.counter + s.events.length := by
  induction ts generalizing s n with
  | nil => rfl
  | cons t ts ih =>
    have h1 := ih (s.check t).state (applyFires n (s.check t).fired)
    have h2 := applyFires_counter n (s.check t).fired
    have h3 := check_length s t
    simp only [runChecks]
    omega

/-- The drive phase never sets the harness error flag: firings are never
premature and their observed checkpoints never decrease. -/
theorem runChecks_no_error (s : StandardScheduler) (n : Notifier)
    (ts : List Nat) (hn : n.error = false) (hl : n.last ≤ s.current) :
    (runChecks s n ts).2.error = false := by
  induction ts generalizing s n with
  | nil => exact hn
  | cons t ts ih =>
    have hfired := check_fired_ok s t
    have hcur := (check_current_bounds s t).1
    have happ := applyFires_no_error (s.check t).state.current n
      (s.check t).fired hn (le_trans hl hcur) hfired
    exact ih (s.check t).state _ happ.1 happ.2

/-- The scheduling phase never touches the checkpoint. -/
theorem scheduleAll_current (s : StandardScheduler) (regs : List (Nat × Nat)) :
    (scheduleAll s regs).current = s.current := by
  induction regs generalizing s with
  | nil => rfl
  | cons r regs ih => exact ih (s.schedule r.1 r.2)

/-- The scheduling phase keeps the multimap key-sorted. -/
theorem scheduleAll_sorted (s : StandardScheduler) (regs : List (Nat × Nat))
    (hs : SortedByKey s.events) : SortedByKey (scheduleAll s regs).events := by
  induction regs generalizing s with
  | nil => exact hs
  | cons r regs ih => exact ih _ (insertEntry_sorted r.2 r.1 s.events hs)

/-- The scheduling phase grows the multimap by exactly one entry per call. -/
theorem scheduleAll_length (s : StandardScheduler) (regs : List (Nat × Nat)) :
    (scheduleAll s regs).events.length = s.events.length + regs.length := by
  induction regs generalizing s with
  | nil => rfl
  | cons r regs ih =>
    have h1 := ih (s.schedule r.1 r.2)
    have h2 : (s.schedule r.1 r.2).events.length = s.events.length + 1 :=
      insertEntry_length r.2 r.1 s.events
    simp only [scheduleAll, List.length_cons]
    omega

/-- Deadline bound: if every prior entry and every registered deadline is at
most `B`, so is every stored deadline afterwards. -/
theorem scheduleAll_deadline_bound (B : Nat) (s : StandardScheduler)
    (regs : List (Nat × Nat)) (hs : ∀ e ∈ s.events, e.1 ≤ B)
    (hr : ∀ r ∈ regs, r.2 ≤ B) :
    ∀ e ∈ (scheduleAll s regs).events, e.1 ≤ B := by
  induction regs generalizing s with
  | nil => exact hs
  | cons r regs ih =>
    refine ih (s.schedule r.1 r.2) ?_ (fun q hq => hr q (List.mem_cons_of_mem r hq))
    intro e he
    rcases List.mem_cons.mp
        ((insertEntry_perm r.2 r.1 s.events).mem_iff.mp he) with h1 | h1
    · rw [h1]; exact hr r (List.mem_cons_self r regs)
    · exact hs e h1

/-- The drive sequence does reach `10·N`. -/
theorem ten_n_mem_checkTimes (N : Nat) : 10 * N ∈ checkTimes N := by
  refine List.mem_map.mpr ⟨2 * N, ?_, by omega⟩
  exact List.mem_range.mpr (by omega)

/-- **C2**: for every `N ≥ 1`, `R ≥ 1` and every sequence of `N·R`
registrations with deadlines in `[0, 10·N]`, the harness run — all
`schedule` calls on a fresh `StandardScheduler`, then `check(now)` for
`now = 0, 5, …, 10·N` — produces exactly `N·R` fire invocations, never sets
the notifier's error flag, and makes `testScheduler` return true. -/
theorem testScheduler_exactly_once (N R : Nat) (regs : List (Nat × Nat))
    (_hN : 1 ≤ N) (_hR : 1 ≤ R) (hlen : regs.length = N * R)
    (hdl : ∀ r ∈ regs, r.2 ≤ 10 * N) :
    (runChecks (scheduleAll StandardScheduler.init regs) Notifier.init
        (checkTimes N)).2.counter = N * R ∧
    (runChecks (scheduleAll StandardScheduler.init regs) Notifier.init
        (checkTimes N)).2.error = false ∧
    testScheduler regs N R = true := by
  have hsort : SortedByKey (scheduleAll StandardScheduler.init regs).events :=
    scheduleAll_sorted _ _ (List.Pairwise.nil)
  have hbound : ∀ e ∈ (scheduleAll StandardScheduler.init regs).events,
      e.1 ≤ 10 * N :=
    scheduleAll_deadline_bound (10 * N) _ _ (by intro e he; simp [StandardScheduler.init] at he) hdl
  have hnil : (runChecks (scheduleAll StandardScheduler.init regs)
      Notifier.init (checkTimes N)).1.events = [] :=
    runChecks_drains (10 * N) _ _ _ hsort hbound (ten_n_mem_checkTimes N)
  have hcnt := runChecks_counter (scheduleAll StandardScheduler.init regs)
    Notifier.init (checkTimes N)
  have hlen0 : (scheduleAll StandardScheduler.init regs).events.length = N * R := by
    rw [scheduleAll_length]
    simp [StandardScheduler.init, hlen]
  have hcounter : (runChecks (scheduleAll StandardScheduler.init regs)
      Notifier.init (checkTimes N)).2.counter = N * R := by
    rw [hnil] at hcnt
    have h0 : Notifier.init.counter = 0 := rfl
    simp only [List.length_nil] at hcnt
    omega
  have herr : (runChecks (scheduleAll StandardScheduler.init regs)
      Notifier.init (checkTimes N)).2.error = false := by
    refine runChecks_no_error _ _ _ rfl ?_
    rw [scheduleAll_current]
    exact Nat.le_refl 0
  refine ⟨hcounter, herr, ?_⟩
  simp [testScheduler, herr, hcounter]

/-- Witness for C2: `N = R = 1` with the single registration `(event 0,
deadline 3)`. -/
theorem testScheduler_exactly_once_witness :
    1 ≤ 1 ∧ [((0 : Nat), (3 : Nat))].length = 1 * 1 ∧
    (∀ r ∈ [((0 : Nat), (3 : Nat))], r.2 ≤ 10 * 1) ∧
    ((runChecks (scheduleAll StandardScheduler.init [(0, 3)]) Notifier.init
        (checkTimes 1)).2.counter = 1 * 1 ∧
      (runChecks (scheduleAll StandardScheduler.init [(0, 3)]) Notifier.init
        (checkTimes 1)).2.error = false ∧
      testScheduler [(0, 3)] 1 1 = true) :=
  ⟨by decide, by decide, by decide,
    testScheduler_exactly_once 1 1 [(0, 3)] (by decide) (by decide) (by decide)
      (by decide)⟩
